import Mathlib

/-!
Verification of the `thcovmat` numerical module and the `prescriptions`
mask module.

The numerical arrays of the implementation are embedded as a shape (a list
of extents) together with a total valuation on index lists; array values are
idealized as exact integers (every scenario fixed by the specification is
integer-valued, and the algebraic identities proved below hold in any
commutative ring).  Python object identity — which the implementation
uses to gate the degeneracy factor (`bi is bj`) — is modelled by tagging
each array object with a numeric identity.
-/

namespace Thcovmat

/-- A numerical multi-dimensional array: a shape together with a valuation on
index lists.  Only values at in-bounds index lists of the correct rank are
meaningful. -/
structure NDArray where
  shape : List ℕ
  val : List ℕ → ℤ

/-- Placeholder array used as a default for out-of-range list accesses. -/
def emptyArr : NDArray := ⟨[], fun _ => 0⟩

/-- An array object as held in a Python list: the array data plus the object
identity used by the interpreter for `is` comparisons. -/
structure PyArray where
  id : ℕ
  arr : NDArray

/-- Default object for out-of-range list accesses. -/
def defaultPA : PyArray := ⟨0, emptyArr⟩

/-! ### `np.expand_dims`

`np.expand_dims(a, dims)` inserts length-1 axes so that in the *result* the
axes listed in `dims` have extent 1, and the remaining axes carry the
original extents in order. -/

/-- Shape of `np.expand_dims(a, dims)`: position `p` of the result is `1`
when `p ∈ dims`, and otherwise the next original extent — the one whose
index is the number of non-inserted positions before `p`. -/
def expandShape (shape dims : List ℕ) : List ℕ :=
  (List.range (shape.length + dims.length)).map fun p =>
    if p ∈ dims then 1
    else shape.getD ((List.range p).countP fun q => decide (q ∉ dims)) 0

/-- Recover the index into the base array from an index into the expanded
array: drop the coordinates at the inserted positions. -/
def contractIdx (dims idx : List ℕ) : List ℕ :=
  ((List.range idx.length).filter fun p => decide (p ∉ dims)).map fun p => idx.getD p 0

/-- Model of `np.expand_dims`. -/
def expandDims (a : NDArray) (dims : List ℕ) : NDArray :=
  ⟨expandShape a.shape dims, fun idx => a.val (contractIdx dims idx)⟩

/-! ### `shifts_vec` -/

/-- Model of `shifts_vec`: blow up each raw batch with one length-1 axis per
*other* process, so that the renormalization axis of process `i` sits alone
at absolute position `i + 2`.  Each `np.expand_dims` call returns a fresh
array object, modelled by the position being used as the new identity. -/
def shiftsVec (raw : List PyArray) : List PyArray :=
  let n := raw.length
  let dims := (List.range n).map (· + 2)
  raw.enum.map fun ib => ⟨ib.1, expandDims ib.2.arr (dims.erase (ib.1 + 2))⟩

/-! ### `raw_shifts`

`np.random.normal` is an effectful sampler: it reads and advances the RNG
state.  It is embedded as an oracle taking the current state, the location,
the scale and the requested shape, and returning the sampled array together
with the successor state. -/

/-- Recursion for `raw_shifts`: thread the RNG state through the successive
`np.random.normal(loc=10*i, scale=i, size=(batch, 3, 3))` calls. -/
def rawShiftsGo (normal : ℕ → ℤ → ℤ → List ℕ → NDArray × ℕ) :
    ℕ → ℕ → List ℕ → List PyArray × ℕ
  | _, s, [] => ([], s)
  | i, s, batch :: rest =>
    let r := normal s (10 * (i : ℤ)) (i : ℤ) [batch, 3, 3]
    let t := rawShiftsGo normal (i + 1) r.2 rest
    (⟨i, r.1⟩ :: t.1, t.2)

/-- Model of `raw_shifts`. -/
def rawShifts (normal : ℕ → ℤ → ℤ → List ℕ → NDArray × ℕ) (s0 : ℕ)
    (sizes : List ℕ) : List PyArray × ℕ :=
  rawShiftsGo normal 0 s0 sizes

/-! ### `thcovmat` -/

/-- Broadcast indexing: an axis of extent 1 is read at 0 whatever the
broadcast coordinate is. -/
def bcastIdx (s t : ℕ) : ℕ := if s = 1 then 0 else t

/-- Sum of a function over all coordinate tuples below the given extents. -/
def sumOver : List ℕ → (List ℕ → ℤ) → ℤ
  | [], f => f []
  | e :: rest, f =>
    (((List.range e).map fun t => sumOver rest fun ts => f (t :: ts)).sum)

/-- Entry `(a, b)` of
`np.einsum(bi, [0, *sumdims], bj, [1, *sumdims], [0, 1])`: both operands keep
their leading points axis and are summed, with broadcasting, over all the
remaining axes pairwise. -/
def einsumEntry (bi bj : NDArray) (a b : ℕ) : ℤ :=
  sumOver (List.zipWith max (bi.shape.drop 1) (bj.shape.drop 1)) fun ts =>
    bi.val (a :: List.zipWith bcastIdx (bi.shape.drop 1) ts) *
      bj.val (b :: List.zipWith bcastIdx (bj.shape.drop 1) ts)

/-- `murs`: the number of renormalization-scale points of the first process,
`np.array(shifts[0].shape[2:]).prod()`. -/
def murs (shifts : List PyArray) : ℕ :=
  ((shifts.getD 0 defaultPA).arr.shape.drop 2).prod

/-- The per-process point counts (leading extents). -/
def sizesOf (shifts : List PyArray) : List ℕ :=
  shifts.map fun s => s.arr.shape.headD 0

/-- Locate a global row index inside the block row partition: return the
block index together with the offset inside the block. -/
def locate : List ℕ → ℕ → ℕ × ℕ
  | [], r => (0, r)
  | n :: rest, r =>
    if r < n then (0, r)
    else
      let p := locate rest (r - n)
      (p.1 + 1, p.2)

/-- Entry `(a, b)` of block `(i, j)`:
`np.einsum(bi, [0, *sumdims], bj, [1, *sumdims], [0, 1]) * degeneracy` with
`degeneracy = murs if bi is bj else 1.0`. -/
def blockVal (shifts : List PyArray) (i j a b : ℕ) : ℤ :=
  (if (shifts.getD i defaultPA).id = (shifts.getD j defaultPA).id
    then (murs shifts : ℤ) else 1)
    * einsumEntry (shifts.getD i defaultPA).arr (shifts.getD j defaultPA).arr a b

/-- The assembled `np.block(blockmat)` matrix: a square array of side
`N = Σ n_k` whose entry `(r, c)` is read off the block containing it. -/
def thcovmatMat (shifts : List PyArray) : NDArray :=
  ⟨[(sizesOf shifts).sum, (sizesOf shifts).sum], fun idx =>
    match idx with
    | [r, c] =>
      let pi := locate (sizesOf shifts) r
      let pj := locate (sizesOf shifts) c
      blockVal shifts pi.1 pj.1 pi.2 pj.2
    | _ => 0⟩

/-- The `ValueError` message raised by `thcovmat`. -/
def mursErrorMsg : String :=
  "All the different renormalization scales should have the same number of points"

/-- Model of `thcovmat`: access to `shifts[0]` (inside `murs`) fails on an
empty list; then the shared-extent check runs before any block is
contracted; only then is the block matrix assembled. -/
def thcovmat (shifts : List PyArray) : Except String NDArray :=
  if shifts.length = 0 then .error "IndexError: list index out of range"
  else if ∀ p ∈ shifts, (p.arr.shape.drop 2).prod = murs shifts then
    .ok (thcovmatMat shifts)
  else .error mursErrorMsg

/-- The sampled-input-to-covariance pipeline after sampling: dimensional
promotion followed by block contraction. -/
def pipeline (raw : List PyArray) : Except String NDArray :=
  thcovmat (shiftsVec raw)

/-- An all-ones array of the given shape. -/
def ones (shape : List ℕ) : NDArray := ⟨shape, fun _ => 1⟩

/-- The concrete two-process reference input: point counts (2, 3),
`nf = nr = 3`, all-ones batches. -/
def craw : List PyArray := [⟨0, ones [2, 3, 3]⟩, ⟨1, ones [3, 3, 3]⟩]

/-- The shape pattern produced by the axis promoter: process `k` of `P`
keeps its point count and factorization extent, and its renormalization
extent sits alone at absolute position `k + 2` among `P` renormalization
slots. -/
def promotedShapes (shifts : List PyArray) (n nf nr : ℕ → ℕ) : Prop :=
  ∀ k < shifts.length,
    (shifts.getD k defaultPA).arr.shape
      = n k :: nf k :: ((List.range shifts.length).map fun j => if j = k then nr k else 1)

/-! ### The prescription masks -/

/-- A prescription: a weighted mask over the factorization/renormalization
grid together with the coordinates of the central scale.  The mask is a
total valuation on the grid; `maskShape` records the `(nf, nr)` extents. -/
structure Prescription where
  maskShape : ℕ × ℕ
  mask : ℕ → ℕ → ℤ
  name : Option String
  f0 : ℕ
  r0 : ℕ

/-- Write `v` at position `(i, j)` of a mask. -/
def setMask (m : ℕ → ℕ → ℤ) (i j : ℕ) (v : ℤ) : ℕ → ℕ → ℤ :=
  fun a b => if a = i ∧ b = j then v else m a b

/-- `nullify_central`: remove the central value, since it is a zero shift. -/
def nullifyCentral (p : Prescription) : Prescription :=
  { p with mask := setMask p.mask p.f0 p.r0 0 }

/-- The dataclass constructor together with `__post_init__`: default `f0`
and `r0` to half the corresponding mask extent, then nullify the central
element. -/
def mkPrescription (shape : ℕ × ℕ) (mask : ℕ → ℕ → ℤ) (name : Option String)
    (f0 r0 : Option ℕ) : Prescription :=
  nullifyCentral ⟨shape, mask, name, f0.getD (shape.1 / 2), r0.getD (shape.2 / 2)⟩

/-- `Prescription.ren`: start from zeros, set row `f0` to ones, nullify. -/
def Prescription.ren (shape : ℕ × ℕ) (f0 r0 : Option ℕ) : Prescription :=
  let p := mkPrescription shape (fun _ _ => 0) (some "Renormalization only") f0 r0
  nullifyCentral { p with mask := fun a b => if a = p.f0 then 1 else p.mask a b }

/-- `Prescription.fact`: start from zeros, set column `r0` to ones, nullify. -/
def Prescription.fact (shape : ℕ × ℕ) (f0 r0 : Option ℕ) : Prescription :=
  let p := mkPrescription shape (fun _ _ => 0) (some "Factorization only") f0 r0
  nullifyCentral { p with mask := fun a b => if b = p.r0 then 1 else p.mask a b }

/-- `np.fill_diagonal(mask, 1)` on an `n × m` mask. -/
def fillDiag (m : ℕ → ℕ → ℤ) (nrow ncol : ℕ) : ℕ → ℕ → ℤ :=
  fun a b => if a = b ∧ a < min nrow ncol then 1 else m a b

/-- `np.fill_diagonal(mask[::-1], 1)`: the anti-diagonal. -/
def fillAntiDiag (m : ℕ → ℕ → ℤ) (nrow ncol : ℕ) : ℕ → ℕ → ℤ :=
  fun a b => if a + b + 1 = nrow ∧ b < min nrow ncol then 1 else m a b

/-- `Prescription.sum`: the diagonal, nullified. -/
def Prescription.sum (shape : ℕ × ℕ) (f0 r0 : Option ℕ) : Prescription :=
  let p := mkPrescription shape (fun _ _ => 0) (some "Fully correlated") f0 r0
  nullifyCentral { p with mask := fillDiag p.mask shape.1 shape.2 }

/-- `Prescription.antisum`: the anti-diagonal, nullified. -/
def Prescription.antisum (shape : ℕ × ℕ) (f0 r0 : Option ℕ) : Prescription :=
  let p := mkPrescription shape (fun _ _ => 0) (some "Fully anti-correlated") f0 r0
  nullifyCentral { p with mask := fillAntiDiag p.mask shape.1 shape.2 }

/-- Pointwise logical or of two masks, multiplied back to a 0/1 weight. -/
def orMask (m1 m2 : ℕ → ℕ → ℤ) : ℕ → ℕ → ℤ :=
  fun a b => if m1 a b ≠ 0 ∨ m2 a b ≠ 0 then 1 else 0

/-- `Prescription.christ`: union of `ren` and `fact`, built through the
dataclass constructor (whose post-init nullifies the central element). -/
def Prescription.christ (shape : ℕ × ℕ) (f0 r0 : Option ℕ) : Prescription :=
  let el1 := Prescription.ren shape f0 r0
  let el2 := Prescription.fact shape f0 r0
  mkPrescription shape (orMask el1.mask el2.mask) (some "Christ") f0 r0

/-- `Prescription.standrews`: union of `sum` and `antisum`, built through
the dataclass constructor. -/
def Prescription.standrews (shape : ℕ × ℕ) (f0 r0 : Option ℕ) : Prescription :=
  let el1 := Prescription.sum shape f0 r0
  let el2 := Prescription.antisum shape f0 r0
  mkPrescription shape (orMask el1.mask el2.mask) (some "St Andrews") f0 r0

/-- `np.fill_diagonal(mask[1:], 1)`: the subdiagonal. -/
def fillSubDiag (m : ℕ → ℕ → ℤ) (nrow ncol : ℕ) : ℕ → ℕ → ℤ :=
  fun a b => if a = b + 1 ∧ b < min (nrow - 1) ncol then 1 else m a b

/-- `np.fill_diagonal(mask[:, 1:], 1)`: the superdiagonal. -/
def fillSuperDiag (m : ℕ → ℕ → ℤ) (nrow ncol : ℕ) : ℕ → ℕ → ℤ :=
  fun a b => if b = a + 1 ∧ a < min nrow (ncol - 1) then 1 else m a b

/-- `Prescription.tridiag`: diagonal plus both adjacent diagonals,
nullified. -/
def Prescription.tridiag (shape : ℕ × ℕ) (f0 r0 : Option ℕ) : Prescription :=
  let p := mkPrescription shape (fun _ _ => 0) (some "Tridiagonal") f0 r0
  let m1 := fillDiag p.mask shape.1 shape.2
  let m2 := fillSubDiag m1 shape.1 shape.2
  nullifyCentral { p with mask := fillSuperDiag m2 shape.1 shape.2 }

/-- `np.fill_diagonal(mask[::-1, 1:], 1)`: the anti-diagonal shifted one
column to the right. -/
def fillAntiSuperDiag (m : ℕ → ℕ → ℤ) (nrow ncol : ℕ) : ℕ → ℕ → ℤ :=
  fun a b => if a + b = nrow ∧ 1 ≤ b ∧ b - 1 < min nrow (ncol - 1) then 1 else m a b

/-- `np.fill_diagonal(mask[-2::-1, :], 1)`: the anti-diagonal of the mask
without its last row. -/
def fillAntiSubDiag (m : ℕ → ℕ → ℤ) (nrow ncol : ℕ) : ℕ → ℕ → ℤ :=
  fun a b => if a + b + 2 = nrow ∧ b < min (nrow - 1) ncol then 1 else m a b

/-- `Prescription.antitridiag`: anti-diagonal plus both adjacent
anti-diagonals, nullified. -/
def Prescription.antitridiag (shape : ℕ × ℕ) (f0 r0 : Option ℕ) : Prescription :=
  let p := mkPrescription shape (fun _ _ => 0) (some "Anti-tridiagonal") f0 r0
  let m1 := fillAntiDiag p.mask shape.1 shape.2
  let m2 := fillAntiSuperDiag m1 shape.1 shape.2
  nullifyCentral { p with mask := fillAntiSubDiag m2 shape.1 shape.2 }

/-- `Prescription.incoherent`: all ones; only the dataclass post-init
touches the mask. -/
def Prescription.incoherent (shape : ℕ × ℕ) (f0 r0 : Option ℕ) : Prescription :=
  mkPrescription shape (fun _ _ => 1) (some "Fully incoherent") f0 r0

/-! ### Helper lemmas -/

theorem sumOver_congr {f g : List ℕ → ℤ} (exts : List ℕ) (h : ∀ ts, f ts = g ts) :
    sumOver exts f = sumOver exts g := by
  induction exts generalizing f g with
  | nil => exact h []
  | cons e rest ih =>
    simp only [sumOver]
    have hfun : (fun t => sumOver rest fun ts => f (t :: ts))
        = fun t => sumOver rest fun ts => g (t :: ts) :=
      funext fun t => ih fun ts => h (t :: ts)
    rw [hfun]

theorem einsumEntry_comm (x y : NDArray) (a b : ℕ) :
    einsumEntry x y a b = einsumEntry y x b a := by
  unfold einsumEntry
  rw [List.zipWith_comm_of_comm max Nat.max_comm (y.shape.drop 1) (x.shape.drop 1)]
  exact sumOver_congr _ fun ts => mul_comm _ _

theorem blockVal_comm (shifts : List PyArray) (i j a b : ℕ) :
    blockVal shifts i j a b = blockVal shifts j i b a := by
  unfold blockVal
  rw [einsumEntry_comm]
  by_cases h : (shifts.getD i defaultPA).id = (shifts.getD j defaultPA).id
  · rw [if_pos h, if_pos h.symm]
  · rw [if_neg h, if_neg fun hc => h hc.symm]

theorem countP_singleton_of_neg {p : ℕ → Bool} {a : ℕ} (h : ¬ p a = true) :
    List.countP p [a] = 0 := by
  rw [List.countP_cons_of_neg p [] h, List.countP_nil]

theorem prod_map_ite_one {P k x : ℕ} (hk : k < P) :
    (((List.range P).map fun j => if j = k then x else 1)).prod = x := by
  induction P with
  | zero => omega
  | succ m ih =>
    rw [List.range_succ, List.map_append, List.prod_append]
    rcases Nat.lt_or_ge k m with hlt | hge
    · have hm : m ≠ k := by omega
      simp [ih hlt, hm]
    · have hk2 : k = m := by omega
      subst hk2
      have hone : (((List.range k).map fun j => if j = k then x else 1)).prod = 1 := by
        refine List.prod_eq_one fun z hz => ?_
        rcases List.mem_map.mp hz with ⟨j, hj, rfl⟩
        have : j ≠ k := by have := List.mem_range.mp hj; omega
        simp [this]
      simp [hone]

theorem countP_range_lt_two {m : ℕ} (hm : 2 ≤ m) :
    (List.range m).countP (fun q => decide (q < 2)) = 2 := by
  induction m with
  | zero => omega
  | succ t ih =>
    rcases Nat.lt_or_ge t 2 with hlt | hge
    · interval_cases t
      · omega
      · rfl
    · rw [List.range_succ, List.countP_append, ih (by omega),
        countP_singleton_of_neg (by simp; omega)]

/-- Membership in the inserted-axis list of process `k` among `P`. -/
theorem mem_promoted_dims {P k p : ℕ} :
    p ∈ ((List.range P).map (· + 2)).erase (k + 2) ↔ 2 ≤ p ∧ p < P + 2 ∧ p ≠ k + 2 := by
  have hnd : (((List.range P).map (· + 2))).Nodup :=
    (List.nodup_range P).map fun a b h => by omega
  rw [hnd.mem_erase_iff]
  simp only [List.mem_map, List.mem_range]
  constructor
  · rintro ⟨hne, j, hj, rfl⟩
    exact ⟨by omega, by omega, hne⟩
  · rintro ⟨h2, hP, hne⟩
    exact ⟨hne, p - 2, by omega, by omega⟩

/-- Shape of the promoted tensor of process `k` among `P`. -/
theorem expandShape_promoted {P k : ℕ} (n nf nr : ℕ) (hk : k < P) :
    expandShape [n, nf, nr] (((List.range P).map (· + 2)).erase (k + 2))
      = n :: nf :: ((List.range P).map fun j => if j = k then nr else 1) := by
  have hlenD : (((List.range P).map (· + 2)).erase (k + 2)).length = P - 1 := by
    rw [List.length_erase_of_mem, List.length_map, List.length_range]
    exact List.mem_map.mpr ⟨k, List.mem_range.mpr hk, rfl⟩
  refine List.ext_getElem ?_ fun p h1 h2 => ?_
  · simp only [expandShape, List.length_map, List.length_range, List.length_cons,
      List.length_nil, hlenD]
    omega
  · have hp : p < P + 2 := by
      simp only [List.length_cons, List.length_map, List.length_range] at h2
      omega
    simp only [expandShape, List.getElem_map, List.getElem_range]
    match p, hp with
    | 0, _ =>
      have h0 : ¬ (0 ∈ ((List.range P).map (· + 2)).erase (k + 2)) := by
        rw [mem_promoted_dims]; omega
      simp [h0]
    | 1, _ =>
      have h1m : ¬ (1 ∈ ((List.range P).map (· + 2)).erase (k + 2)) := by
        rw [mem_promoted_dims]; omega
      have h0 : ¬ (0 ∈ ((List.range P).map (· + 2)).erase (k + 2)) := by
        rw [mem_promoted_dims]; omega
      have hc : (List.range 1).countP
          (fun q => !decide (q ∈ ((List.range P).map (· + 2)).erase (k + 2))) = 1 := by
        have h00 : List.range 1 = [0] := rfl
        rw [h00, List.countP_cons_of_pos, List.countP_nil]
        simp [h0]
      simp [h1m, hc]
    | (q + 2), hq =>
      have hq2 : q < P := by omega
      rcases eq_or_ne q k with rfl | hne
      · have hself : ¬ (q + 2 ∈ ((List.range P).map (· + 2)).erase (q + 2)) := by
          rw [mem_promoted_dims]; omega
        have hc : (List.range (q + 2)).countP
            (fun x => !decide (x ∈ ((List.range P).map (· + 2)).erase (q + 2))) = 2 := by
          rw [List.countP_congr (q := fun x => decide (x < 2)) ?_]
          · exact countP_range_lt_two (by omega)
          · intro x hx
            have hxlt : x < q + 2 := List.mem_range.mp hx
            simp only [Bool.not_eq_true', decide_eq_false_iff_not, decide_eq_true_eq]
            rw [mem_promoted_dims]
            omega
        simp [hself, hc]
      · have hin : (q + 2) ∈ ((List.range P).map (· + 2)).erase (k + 2) := by
          rw [mem_promoted_dims]; omega
        simp [hin, hne]

theorem shiftsVec_length (raw : List PyArray) : (shiftsVec raw).length = raw.length := by
  simp [shiftsVec]

theorem shiftsVec_getD (raw : List PyArray) {k : ℕ} (hk : k < raw.length) :
    (shiftsVec raw).getD k defaultPA
      = ⟨k, expandDims (raw.getD k defaultPA).arr
          (((List.range raw.length).map (· + 2)).erase (k + 2))⟩ := by
  have hk2 : k < (shiftsVec raw).length := by rw [shiftsVec_length]; exact hk
  rw [List.getD_eq_getElem _ _ hk2, List.getD_eq_getElem _ _ hk]
  simp [shiftsVec, List.getElem_enum]

/-- The axis promoter sends rank-3 batches to the promoted shape pattern. -/
theorem shiftsVec_promotedShapes (raw : List PyArray) (n nf nr : ℕ → ℕ)
    (hshape : ∀ k < raw.length, (raw.getD k defaultPA).arr.shape = [n k, nf k, nr k]) :
    promotedShapes (shiftsVec raw) n nf nr := by
  intro k hk
  rw [shiftsVec_length] at hk
  rw [shiftsVec_getD raw hk, shiftsVec_length]
  show expandShape (raw.getD k defaultPA).arr.shape _ = _
  rw [hshape k hk]
  exact expandShape_promoted _ _ _ hk

/-- On promoted shapes, the trailing-extent product of process `k` is its
renormalization extent. -/
theorem prod_drop2_promoted {shifts : List PyArray} {n nf nr : ℕ → ℕ}
    (hp : promotedShapes shifts n nf nr) {k : ℕ} (hk : k < shifts.length) :
    (((shifts.getD k defaultPA).arr.shape).drop 2).prod = nr k := by
  rw [hp k hk]
  simp only [List.drop_succ_cons, List.drop_zero]
  exact prod_map_ite_one hk

/-- On promoted shapes, `murs` is the renormalization extent of the first
process. -/
theorem murs_promoted {shifts : List PyArray} {n nf nr : ℕ → ℕ}
    (hp : promotedShapes shifts n nf nr) (h0 : 0 < shifts.length) :
    murs shifts = nr 0 :=
  prod_drop2_promoted hp h0

/-- On promoted shapes, the block sizes are the point counts. -/
theorem sizesOf_promoted {shifts : List PyArray} {n nf nr : ℕ → ℕ}
    (hp : promotedShapes shifts n nf nr) :
    sizesOf shifts = (List.range shifts.length).map n := by
  refine List.ext_getElem (by simp [sizesOf]) fun k h1 h2 => ?_
  have hk : k < shifts.length := by simpa [sizesOf] using h1
  simp only [sizesOf, List.getElem_map, List.getElem_range]
  have h := hp k hk
  rw [List.getD_eq_getElem _ _ hk] at h
  rw [h]
  rfl

/-- With promoted shapes of a common renormalization extent, the shape check
passes and the block matrix is returned. -/
theorem thcovmat_ok {shifts : List PyArray} {n nf nr : ℕ → ℕ}
    (hp : promotedShapes shifts n nf nr) (h0 : 0 < shifts.length)
    (hnr : ∀ k < shifts.length, nr k = nr 0) :
    thcovmat shifts = .ok (thcovmatMat shifts) := by
  unfold thcovmat
  rw [if_neg (by omega), if_pos]
  intro p hpmem
  rcases List.mem_iff_getElem.mp hpmem with ⟨k, hk, rfl⟩
  have hkd : ((shifts[k].arr.shape).drop 2).prod = nr k := by
    have h := prod_drop2_promoted hp hk
    rwa [List.getD_eq_getElem _ _ hk] at h
  rw [hkd, murs_promoted hp h0, hnr k hk]

/-- With promoted shapes of differing renormalization extents, the shape
check fails and the descriptive error is raised instead of any matrix. -/
theorem thcovmat_error {shifts : List PyArray} {n nf nr : ℕ → ℕ}
    (hp : promotedShapes shifts n nf nr) (h0 : 0 < shifts.length)
    {i j : ℕ} (hi : i < shifts.length) (hj : j < shifts.length)
    (hne : nr i ≠ nr j) :
    thcovmat shifts = .error mursErrorMsg := by
  unfold thcovmat
  rw [if_neg (by omega), if_neg]
  intro hall
  have hgen : ∀ k, k < shifts.length → nr k = nr 0 := by
    intro k hk
    have hmem := hall shifts[k] (List.getElem_mem hk)
    have hkd : ((shifts[k].arr.shape).drop 2).prod = nr k := by
      have h := prod_drop2_promoted hp hk
      rwa [List.getD_eq_getElem _ _ hk] at h
    rw [hkd, murs_promoted hp h0] at hmem
    exact hmem
  exact hne ((hgen i hi).trans (hgen j hj).symm)

/-! ### Claims -/

/-- C1: for promoted shift tensors sharing the renormalization extent `nr`
(pairwise distinct array objects, as the promoter produces them), the block
contractor multiplies each diagonal block `(i, i)` by the scalar degeneracy
factor `nr` and every off-diagonal block `(i, j)`, `i ≠ j`, by `1`. -/
theorem claim1_degeneracy_factor (shifts : List PyArray) (n nf : ℕ → ℕ) (nr : ℕ)
    (hp : promotedShapes shifts n nf fun _ => nr) (h0 : 0 < shifts.length)
    (hid : (shifts.map PyArray.id).Nodup)
    (i j a b : ℕ) (hi : i < shifts.length) (hj : j < shifts.length) :
    blockVal shifts i j a b
      = (if i = j then (nr : ℤ) else 1)
        * einsumEntry (shifts.getD i defaultPA).arr (shifts.getD j defaultPA).arr a b := by
  have hmurs : murs shifts = nr := murs_promoted hp h0
  unfold blockVal
  rw [hmurs]
  rcases eq_or_ne i j with rfl | hne
  · simp
  · rw [if_neg hne, if_neg]
    intro hcid
    rw [List.getD_eq_getElem _ _ hi, List.getD_eq_getElem _ _ hj] at hcid
    have hi2 : i < (shifts.map PyArray.id).length := by simpa using hi
    have hj2 : j < (shifts.map PyArray.id).length := by simpa using hj
    have hmap : (shifts.map PyArray.id)[i] = (shifts.map PyArray.id)[j] := by
      simpa [List.getElem_map] using hcid
    exact hne (hid.getElem_inj_iff.mp hmap)

/-- Witness for C1: on the promoted concrete two-process input, the diagonal
block carries the factor 3 and the off-diagonal block the factor 1. -/
theorem claim1_witness :
    blockVal (shiftsVec craw) 0 0 0 0
      = (3 : ℤ) * einsumEntry ((shiftsVec craw).getD 0 defaultPA).arr
          ((shiftsVec craw).getD 0 defaultPA).arr 0 0
    ∧ blockVal (shiftsVec craw) 0 1 0 0
      = (1 : ℤ) * einsumEntry ((shiftsVec craw).getD 0 defaultPA).arr
          ((shiftsVec craw).getD 1 defaultPA).arr 0 0 := by
  have hp : promotedShapes (shiftsVec craw)
      (fun k => if k = 0 then 2 else 3) (fun _ => 3) (fun _ => 3) := by
    unfold promotedShapes
    decide
  constructor
  · have h := claim1_degeneracy_factor (shiftsVec craw) (fun k => if k = 0 then 2 else 3)
      (fun _ => 3) 3 hp (by decide) (by decide) 0 0 0 0 (by decide) (by decide)
    simpa using h
  · have h := claim1_degeneracy_factor (shiftsVec craw) (fun k => if k = 0 then 2 else 3)
      (fun _ => 3) 3 hp (by decide) (by decide) 0 1 0 0 (by decide) (by decide)
    simpa using h

/-- C3: supplying promoted tensors with differing renormalization extents
raises the descriptive shape-mismatch error before any contraction — no
matrix, not even a partial one, is produced — while agreeing extents raise
no such error. -/
theorem claim3_extent_check (shifts : List PyArray) (n nf nr : ℕ → ℕ)
    (hp : promotedShapes shifts n nf nr) (h0 : 0 < shifts.length) :
    ((∃ i, i < shifts.length ∧ ∃ j, j < shifts.length ∧ nr i ≠ nr j) →
      thcovmat shifts = .error mursErrorMsg)
    ∧ ((∀ k < shifts.length, nr k = nr 0) →
      thcovmat shifts = .ok (thcovmatMat shifts)) := by
  constructor
  · rintro ⟨i, hi, j, hj, hne⟩
    exact thcovmat_error hp h0 hi hj hne
  · intro hall
    exact thcovmat_ok hp h0 hall

/-- A promoted pair whose renormalization extents differ: 3 against 4. -/
def badShifts : List PyArray :=
  [⟨0, ⟨[2, 3, 3, 1], fun _ => 1⟩⟩, ⟨1, ⟨[2, 3, 1, 4], fun _ => 1⟩⟩]

/-- Witness for C3: extents 3 and 4 produce the error, the all-equal case
produces the matrix. -/
theorem claim3_witness :
    thcovmat badShifts = .error mursErrorMsg
    ∧ thcovmat (shiftsVec craw) = .ok (thcovmatMat (shiftsVec craw)) := by
  constructor
  · have hp : promotedShapes badShifts
        (fun _ => 2) (fun _ => 3) (fun k => if k = 0 then 3 else 4) := by
      unfold promotedShapes
      decide
    exact (claim3_extent_check badShifts _ _ _ hp (by decide)).1
      ⟨0, by decide, 1, by decide, by decide⟩
  · have hp : promotedShapes (shiftsVec craw)
        (fun k => if k = 0 then 2 else 3) (fun _ => 3) (fun _ => 3) := by
      unfold promotedShapes
      decide
    exact (claim3_extent_check (shiftsVec craw) _ _ _ hp (by decide)).2
      fun k _ => rfl

/-- C4: block `(i, j)` of the output equals the transpose of block `(j, i)`:
entrywise, block entry `(a, b)` of `(i, j)` equals entry `(b, a)` of
`(j, i)`, and the assembled matrix is symmetric. -/
theorem claim4_block_transpose (shifts : List PyArray) (i j a b r c : ℕ) :
    blockVal shifts i j a b = blockVal shifts j i b a
    ∧ (thcovmatMat shifts).val [r, c] = (thcovmatMat shifts).val [c, r] := by
  refine ⟨blockVal_comm shifts i j a b, ?_⟩
  exact blockVal_comm shifts (locate (sizesOf shifts) r).1 (locate (sizesOf shifts) c).1
    (locate (sizesOf shifts) r).2 (locate (sizesOf shifts) c).2

/-- C5: on valid promoted inputs — single-point processes included — the
contractor returns a square matrix of shape `(N, N)` with `N` the sum of the
point counts. -/
theorem claim5_output_shape (shifts : List PyArray) (n nf nr : ℕ → ℕ)
    (hp : promotedShapes shifts n nf nr) (h0 : 0 < shifts.length)
    (hnr : ∀ k < shifts.length, nr k = nr 0) :
    thcovmat shifts = .ok (thcovmatMat shifts)
    ∧ (thcovmatMat shifts).shape
        = [((List.range shifts.length).map n).sum,
            ((List.range shifts.length).map n).sum] := by
  refine ⟨thcovmat_ok hp h0 hnr, ?_⟩
  show [(sizesOf shifts).sum, (sizesOf shifts).sum] = _
  rw [sizesOf_promoted hp]

/-- A two-process input containing a single-point process. -/
def craw5 : List PyArray := [⟨0, ones [1, 3, 3]⟩, ⟨1, ones [2, 3, 3]⟩]

/-- Witness for C5: point counts (1, 2) — one of them a single-point
process — produce, without error, a (3, 3) matrix. -/
theorem claim5_witness :
    thcovmat (shiftsVec craw5) = .ok (thcovmatMat (shiftsVec craw5))
    ∧ (thcovmatMat (shiftsVec craw5)).shape = [3, 3] := by
  have hp : promotedShapes (shiftsVec craw5)
      (fun k => if k = 0 then 1 else 2) (fun _ => 3) (fun _ => 3) := by
    unfold promotedShapes
    decide
  have h := claim5_output_shape (shiftsVec craw5) (fun k => if k = 0 then 1 else 2)
    (fun _ => 3) (fun _ => 3) hp (by decide) (fun k _ => rfl)
  exact ⟨h.1, h.2.trans (by decide)⟩

/-- C6: the axis promoter returns one tensor per process; tensor `k` has
rank `P + 2`, keeps its point count and factorization extent in front, its
real renormalization extent `nr` sits at absolute position `k + 2`, and the
`P - 1` inserted axes at the other positions in `2..P+1` all have length
1. -/
theorem claim6_promoter_shapes (raw : List PyArray) (k n nf nr : ℕ)
    (hk : k < raw.length)
    (hshape : (raw.getD k defaultPA).arr.shape = [n, nf, nr]) :
    (shiftsVec raw).length = raw.length
    ∧ ((shiftsVec raw).getD k defaultPA).arr.shape
        = n :: nf :: ((List.range raw.length).map fun j => if j = k then nr else 1)
    ∧ ((shiftsVec raw).getD k defaultPA).arr.shape.length = raw.length + 2 := by
  have hsh : ((shiftsVec raw).getD k defaultPA).arr.shape
      = n :: nf :: ((List.range raw.length).map fun j => if j = k then nr else 1) := by
    rw [shiftsVec_getD raw hk]
    show expandShape (raw.getD k defaultPA).arr.shape _ = _
    rw [hshape]
    exact expandShape_promoted _ _ _ hk
  refine ⟨shiftsVec_length raw, hsh, ?_⟩
  rw [hsh]
  simp

/-- Witness for C6: the second process of the concrete two-process input is
promoted to shape (3, 3, 1, 3). -/
theorem claim6_witness :
    (shiftsVec craw).length = 2
    ∧ ((shiftsVec craw).getD 1 defaultPA).arr.shape = [3, 3, 1, 3]
    ∧ ((shiftsVec craw).getD 1 defaultPA).arr.shape.length = 4 := by
  have h := claim6_promoter_shapes craw 1 3 3 3 (by decide) (by decide)
  exact ⟨h.1, h.2.1.trans (by decide), h.2.2⟩

/-- C9: the degeneracy correction is gated by object identity, not index
equality — equal identities at any two positions (the same array object
twice) give the factor `murs`, while distinct objects, equal-valued or not,
give the factor 1. -/
theorem claim9_identity_gating (shifts : List PyArray) (i j a b : ℕ) :
    ((shifts.getD i defaultPA).id = (shifts.getD j defaultPA).id →
      blockVal shifts i j a b
        = (murs shifts : ℤ) * einsumEntry (shifts.getD i defaultPA).arr
            (shifts.getD j defaultPA).arr a b)
    ∧ ((shifts.getD i defaultPA).id ≠ (shifts.getD j defaultPA).id →
      blockVal shifts i j a b
        = einsumEntry (shifts.getD i defaultPA).arr
            (shifts.getD j defaultPA).arr a b) := by
  constructor
  · intro h
    unfold blockVal
    rw [if_pos h]
  · intro h
    unfold blockVal
    rw [if_neg h, one_mul]

/-- A promoted-shaped array object. -/
def sameObj : PyArray := ⟨5, ones [1, 3, 3, 1]⟩

/-- A distinct array object carrying exactly the same values and shape. -/
def eqValObj : PyArray := ⟨6, ones [1, 3, 3, 1]⟩

/-- Witness for C9: the same object at positions 0 and 1 takes the
degeneracy factor, two distinct equal-valued objects do not. -/
theorem claim9_witness :
    blockVal [sameObj, sameObj] 0 1 0 0
      = (murs [sameObj, sameObj] : ℤ) * einsumEntry sameObj.arr sameObj.arr 0 0
    ∧ blockVal [sameObj, eqValObj] 0 1 0 0
      = einsumEntry sameObj.arr eqValObj.arr 0 0 := by
  constructor
  · exact (claim9_identity_gating [sameObj, sameObj] 0 1 0 0).1 rfl
  · exact (claim9_identity_gating [sameObj, eqValObj] 0 1 0 0).2 (by decide)

/-- C2 counterexample: on the concrete two-process reference input the
entry (0, 2) — a cell of the off-diagonal 2×3 block — equals 27, not the 9
expected by the specification: the contraction also sums over the three
factorization points. -/
theorem claim2_counterexample :
    thcovmat (shiftsVec craw) = .ok (thcovmatMat (shiftsVec craw))
    ∧ (thcovmatMat (shiftsVec craw)).val [0, 2] = 27
    ∧ (thcovmatMat (shiftsVec craw)).val [0, 2] ≠ 9 := by
  have hp : promotedShapes (shiftsVec craw)
      (fun k => if k = 0 then 2 else 3) (fun _ => 3) (fun _ => 3) := by
    unfold promotedShapes
    decide
  exact ⟨thcovmat_ok hp (by decide) fun k _ => rfl, by decide, by decide⟩

/-- C2 amended: the output has shape (5, 5), every cell of both diagonal
blocks equals 27 (9 unit terms times the degeneracy factor 3), and every
cell of the off-diagonal blocks equals 27 as well (3·3·3 = 27 unit terms
over the factorization axis and both renormalization axes, with no
degeneracy factor). -/
theorem claim2_amended :
    thcovmat (shiftsVec craw) = .ok (thcovmatMat (shiftsVec craw))
    ∧ (thcovmatMat (shiftsVec craw)).shape = [5, 5]
    ∧ ((List.range 5).all fun r => (List.range 5).all fun c =>
        decide ((thcovmatMat (shiftsVec craw)).val [r, c] = 27)) = true := by
  have hp : promotedShapes (shiftsVec craw)
      (fun k => if k = 0 then 2 else 3) (fun _ => 3) (fun _ => 3) := by
    unfold promotedShapes
    decide
  exact ⟨thcovmat_ok hp (by decide) fun k _ => rfl, by decide, by decide⟩

theorem rawShiftsGo_length (normal : ℕ → ℤ → ℤ → List ℕ → NDArray × ℕ)
    (sizes : List ℕ) : ∀ i s, (rawShiftsGo normal i s sizes).1.length = sizes.length := by
  induction sizes with
  | nil => intro i s; rfl
  | cons b rest ih =>
    intro i s
    simp only [rawShiftsGo, List.length_cons]
    rw [ih]

theorem rawShiftsGo_shape (normal : ℕ → ℤ → ℤ → List ℕ → NDArray × ℕ)
    (hshape : ∀ s loc scale size, (normal s loc scale size).1.shape = size)
    (sizes : List ℕ) : ∀ i s k, k < sizes.length →
      ((rawShiftsGo normal i s sizes).1.getD k defaultPA).arr.shape
        = [sizes.getD k 0, 3, 3] := by
  induction sizes with
  | nil =>
    intro i s k hk
    simp at hk
  | cons b rest ih =>
    intro i s k hk
    match k with
    | 0 =>
      simp only [rawShiftsGo, List.getD_cons_zero]
      exact hshape _ _ _ _
    | k + 1 =>
      simp only [rawShiftsGo, List.getD_cons_succ]
      exact ih (i + 1) _ k (by simpa using hk)

/-- C7: the sampler returns one array per requested count, each of shape
(count, 3, 3); and whatever the RNG state, process index 0 samples the
constant 0, because its distribution has mean 10·0 = 0 and standard
deviation 0.  The sampler oracle is only assumed to honour the requested
size and to degenerate to the mean at scale 0. -/
theorem claim7_sampler (normal : ℕ → ℤ → ℤ → List ℕ → NDArray × ℕ)
    (hshape : ∀ s loc scale size, (normal s loc scale size).1.shape = size)
    (hzero : ∀ s loc size idx, (normal s loc 0 size).1.val idx = loc)
    (s0 : ℕ) (sizes : List ℕ) :
    (rawShifts normal s0 sizes).1.length = sizes.length
    ∧ (∀ k < sizes.length,
        ((rawShifts normal s0 sizes).1.getD k defaultPA).arr.shape
          = [sizes.getD k 0, 3, 3])
    ∧ (0 < sizes.length →
        ∀ idx, ((rawShifts normal s0 sizes).1.getD 0 defaultPA).arr.val idx = 0) := by
  refine ⟨rawShiftsGo_length normal sizes 0 s0,
    fun k hk => rawShiftsGo_shape normal hshape sizes 0 s0 k hk, ?_⟩
  intro hpos idx
  match sizes, hpos with
  | b :: rest, _ =>
    show ((normal s0 (10 * ((0 : ℕ) : ℤ)) ((0 : ℕ) : ℤ) [b, 3, 3]).1.val idx) = 0
    rw [Nat.cast_zero, mul_zero]
    exact hzero s0 0 [b, 3, 3] idx

/-- A deterministic stand-in for the normal sampler: honours the requested
shape, returns the location plus the scale times the state everywhere, and
advances the state. -/
def mockNormal (s : ℕ) (loc scale : ℤ) (size : List ℕ) : NDArray × ℕ :=
  (⟨size, fun _ => loc + scale * (s : ℤ)⟩, s + 1)

/-- Witness for C7 at a concrete sampler, state and size list. -/
theorem claim7_witness :
    (rawShifts mockNormal 37 [2, 1]).1.length = 2
    ∧ ((rawShifts mockNormal 37 [2, 1]).1.getD 0 defaultPA).arr.shape = [2, 3, 3]
    ∧ ((rawShifts mockNormal 37 [2, 1]).1.getD 0 defaultPA).arr.val [1, 2, 0] = 0 := by
  have h := claim7_sampler mockNormal (fun s loc scale size => rfl)
    (fun s loc size idx => by simp [mockNormal]) 37 [2, 1]
  exact ⟨h.1, h.2.1 0 (by decide), h.2.2 (by decide) [1, 2, 0]⟩

/-- The axis promoter reads only the array contents of its input, never the
object identities. -/
theorem shiftsVec_congr {r1 r2 : List PyArray}
    (h : r1.map PyArray.arr = r2.map PyArray.arr) :
    shiftsVec r1 = shiftsVec r2 := by
  have hlen : r1.length = r2.length := by
    have hm := congrArg List.length h
    simpa using hm
  refine List.ext_getElem (by simp [shiftsVec, hlen]) fun k h1 h2 => ?_
  have hk1 : k < r1.length := by simpa [shiftsVec] using h1
  have hk2 : k < r2.length := by simpa [shiftsVec] using h2
  have hk1m : k < (r1.map PyArray.arr).length := by simpa using hk1
  have hk2m : k < (r2.map PyArray.arr).length := by simpa using hk2
  have harr : (r1.map PyArray.arr)[k] = (r2.map PyArray.arr)[k] :=
    List.getElem_of_eq h hk1m
  rw [List.getElem_map, List.getElem_map] at harr
  simp only [shiftsVec, List.getElem_map, List.getElem_enum]
  rw [harr, hlen]

/-- C8: after sampling, the pipeline (axis promotion followed by block
contraction) is a deterministic function of the raw shift values, with no
dependence on hidden state: two inputs carrying the same arrays — whatever
their object identities — produce identical output matrices, so two runs on
one fixed input agree. -/
theorem claim8_deterministic (r1 r2 : List PyArray)
    (h : r1.map PyArray.arr = r2.map PyArray.arr) :
    pipeline r1 = pipeline r2 :=
  congrArg thcovmat (shiftsVec_congr h)

/-- The reference input held through array objects with different
identities. -/
def crawAlt : List PyArray := [⟨7, ones [2, 3, 3]⟩, ⟨9, ones [3, 3, 3]⟩]

/-- Witness for C8: the reference input and its re-wrapped copy produce the
same matrix. -/
theorem claim8_witness : pipeline craw = pipeline crawAlt :=
  claim8_deterministic craw crawAlt rfl

/-- C10: every prescription — from each of the nine named constructors or
from the direct dataclass construction — has central mask element
`mask[f0][r0] = 0`, the otherwise all-ones 9-point incoherent mask
included; and `f0`, `r0` default to half the corresponding mask dimension
when not supplied. -/
theorem claim10_central_zero (shape : ℕ × ℕ) (mask : ℕ → ℕ → ℤ)
    (name : Option String) (f0 r0 : Option ℕ) :
    (mkPrescription shape mask name f0 r0).mask
        (mkPrescription shape mask name f0 r0).f0
        (mkPrescription shape mask name f0 r0).r0 = 0
    ∧ (Prescription.ren shape f0 r0).mask
        (Prescription.ren shape f0 r0).f0 (Prescription.ren shape f0 r0).r0 = 0
    ∧ (Prescription.fact shape f0 r0).mask
        (Prescription.fact shape f0 r0).f0 (Prescription.fact shape f0 r0).r0 = 0
    ∧ (Prescription.sum shape f0 r0).mask
        (Prescription.sum shape f0 r0).f0 (Prescription.sum shape f0 r0).r0 = 0
    ∧ (Prescription.antisum shape f0 r0).mask
        (Prescription.antisum shape f0 r0).f0 (Prescription.antisum shape f0 r0).r0 = 0
    ∧ (Prescription.christ shape f0 r0).mask
        (Prescription.christ shape f0 r0).f0 (Prescription.christ shape f0 r0).r0 = 0
    ∧ (Prescription.standrews shape f0 r0).mask
        (Prescription.standrews shape f0 r0).f0 (Prescription.standrews shape f0 r0).r0 = 0
    ∧ (Prescription.tridiag shape f0 r0).mask
        (Prescription.tridiag shape f0 r0).f0 (Prescription.tridiag shape f0 r0).r0 = 0
    ∧ (Prescription.antitridiag shape f0 r0).mask
        (Prescription.antitridiag shape f0 r0).f0 (Prescription.antitridiag shape f0 r0).r0 = 0
    ∧ (Prescription.incoherent shape f0 r0).mask
        (Prescription.incoherent shape f0 r0).f0 (Prescription.incoherent shape f0 r0).r0 = 0
    ∧ (Prescription.incoherent shape f0 r0).mask
        = setMask (fun _ _ => 1) (Prescription.incoherent shape f0 r0).f0
            (Prescription.incoherent shape f0 r0).r0 0
    ∧ (mkPrescription shape mask name none none).f0 = shape.1 / 2
    ∧ (mkPrescription shape mask name none none).r0 = shape.2 / 2 := by
  refine ⟨?_, ?_, ?_, ?_, ?_, ?_, ?_, ?_, ?_, ?_, rfl, rfl, rfl⟩ <;>
    simp [mkPrescription, nullifyCentral, setMask, Prescription.ren, Prescription.fact,
      Prescription.sum, Prescription.antisum, Prescription.christ, Prescription.standrews,
      Prescription.tridiag, Prescription.antitridiag, Prescription.incoherent]

end Thcovmat
